import Mathlib

/-!
Shallow embedding of `src/operatorargs.rs` (crate `geodesy`): the
`OperatorArgs` argument store, its definition loader `populate`, and the
value resolver `value` / `numeric_value` / `flag`.

Modelling conventions:
* Rust `HashMap<String, String>` fields are modelled extensionally as
  functions `String → Option String`; `HashMap::insert` is pointwise
  overwrite.
* The YAML library (`yaml_rust`) is external to the repository. Its value
  type `Yaml` is mirrored as an inductive; the parser is not modelled
  (functions take the already-parsed list of documents together with the
  raw definition text), and the emitter is passed in as an abstract
  function `emit : Yaml → String`.
* Rust panics (`unwrap` on `None`, out-of-bounds indexing) are modelled by
  an `Option` result: `none` means the original code panics.
* The indirection chase in `value_recursive_search` has no decreasing
  measure in the source (cyclic chains diverge), so it is embedded with an
  explicit fuel parameter; `none` means the fuel ran out, i.e. the source
  would still be recursing.
-/

namespace Geodesy

/-- Pointwise overwrite, the extensional behaviour of `HashMap::insert`. -/
def mapInsert (m : String → Option String) (k v : String) : String → Option String :=
  fun q => if q = k then some v else m q

/-- Rust `str::starts_with(c)` for a single-character pattern. -/
def starts_with (s : String) (c : Char) : Bool :=
  match s.data with
  | [] => false
  | d :: _ => d = c

/-- The `OperatorArgs` struct of `operatorargs.rs`. -/
structure OperatorArgs where
  name : String
  args : String → Option String
  used : String → Option String
  all_used : String → Option String

namespace OperatorArgs

/-- The `OperatorArgs::new` constructor: empty name, all maps empty. -/
def new : OperatorArgs :=
  { name := "", args := fun _ => none, used := fun _ => none, all_used := fun _ => none }

/-- The `OperatorArgs::insert` method: unconditional overwrite in `args`. -/
def insert (s : OperatorArgs) (key value : String) : OperatorArgs :=
  { s with args := mapInsert s.args key value }

/-- The `OperatorArgs::global_defaults` constructor: seeds `ellps = GRS80`. -/
def global_defaults : OperatorArgs :=
  OperatorArgs.new.insert "ellps" "GRS80"

/-- The `OperatorArgs::name` setter method. -/
def setName (s : OperatorArgs) (name : String) : OperatorArgs :=
  { s with name := name }

/-- The `OperatorArgs::append` method: copies every key of `additional.args`
into `self.args`, overwriting on conflict (extensional form of the
insertion loop). -/
def append (s : OperatorArgs) (additional : OperatorArgs) : OperatorArgs :=
  { s with args := fun k => (additional.args k).orElse (fun _ => s.args k) }

/-- Rust `str::strip_prefix("^")`: `some` remainder when the string starts
with the indirection marker, else `none`. -/
def stripCaret (a : String) : Option String :=
  match a.data with
  | [] => none
  | c :: rest => if c = '^' then some ⟨rest⟩ else none

/-- The private workhorse `value_recursive_search`, with explicit fuel.
A `none` first component means the source is still recursing (only
possible on cyclic indirection chains). -/
def value_recursive_search (fuel : Nat) (key default : String) (s : OperatorArgs) :
    Option String × OperatorArgs :=
  match fuel with
  | 0 => (none, s)
  | fuel + 1 =>
    match s.args key with
    | none => (some default, s)
    | some arg =>
      let s := { s with all_used := mapInsert s.all_used key arg }
      match stripCaret arg with
      | some rest => value_recursive_search fuel rest default s
      | none => (some arg, s)

/-- The public `OperatorArgs::value` method: run the recursive search, then
record `used[key] = arg` when the final value differs from the default. -/
def value (fuel : Nat) (key default : String) (s : OperatorArgs) :
    Option String × OperatorArgs :=
  match value_recursive_search fuel key default s with
  | (none, s) => (none, s)
  | (some arg, s) =>
    if arg ≠ default then (some arg, { s with used := mapInsert s.used key arg })
    else (some arg, s)

/-- The `OperatorArgs::numeric_value` method. The numeric parse
`str::parse::<f64>` belongs to the Rust standard library, so it is passed
in abstractly as `parse : String → Option Float`. -/
def numeric_value (parse : String → Option Float) (fuel : Nat)
    (operator_name key : String) (default : Float) (s : OperatorArgs) :
    Option (Except String Float) × OperatorArgs :=
  match value fuel key "" s with
  | (none, s) => (none, s)
  | (some arg, s) =>
    if arg.isEmpty then (some (Except.ok default), s)
    else
      match parse arg with
      | some v => (some (Except.ok v), s)
      | none =>
        (some (Except.error ("Numeric value expected for '" ++ operator_name ++ "." ++ key ++
          "' - got [" ++ key ++ ": " ++ arg ++ "].")), s)

/-- The `OperatorArgs::flag` method: `value(key, "false") != "false"`. -/
def flag (fuel : Nat) (key : String) (s : OperatorArgs) : Option Bool × OperatorArgs :=
  match value fuel key "false" s with
  | (none, s) => (none, s)
  | (some arg, s) => (some (arg != "false"), s)

end OperatorArgs

/-- The `yaml_rust::Yaml` value type (external library), mirrored from its
public enum: `Real` holds the raw scalar text, hash keys are arbitrary
`Yaml` values, `Alias` is an unresolved alias id. -/
inductive Yaml where
  | real (s : String)
  | integer (i : Int)
  | string (s : String)
  | boolean (b : Bool)
  | array (elems : List Yaml)
  | hash (entries : List (Yaml × Yaml))
  | aliasRef (i : Nat)
  | null
  | badValue

/-- The `Yaml::is_badvalue` predicate. -/
def Yaml.is_badvalue : Yaml → Bool
  | .badValue => true
  | _ => false

/-- The `Yaml::as_str` accessor (only `String` nodes answer). -/
def Yaml.as_str : Yaml → Option String
  | .string s => some s
  | _ => none

/-- The `Yaml::as_hash` accessor. -/
def Yaml.as_hash : Yaml → Option (List (Yaml × Yaml))
  | .hash h => some h
  | _ => none

/-- The `Yaml::as_vec` accessor. -/
def Yaml.as_vec : Yaml → Option (List Yaml)
  | .array v => some v
  | _ => none

/-- Lookup of the key `Yaml::String key` in a hash, as done by
`LinkedHashMap::get` when `Yaml` is indexed by a `&str`. -/
def hashGet : List (Yaml × Yaml) → String → Option Yaml
  | [], _ => none
  | (k, v) :: rest, key =>
    match k with
    | .string s => if s = key then some v else hashGet rest key
    | _ => hashGet rest key

/-- The `Index<&str>` impl on `Yaml`: hash lookup, `BadValue` on any miss. -/
def Yaml.index (y : Yaml) (key : String) : Yaml :=
  match y.as_hash with
  | some h => (hashGet h key).getD .badValue
  | none => .badValue

/-- The scalar-to-string coercion `match` used in `populate` for both the
globals loop and the plain-operator args loop: integer and boolean via
`to_string`, real via its raw text, string as itself, all else empty. -/
def scalarText : Yaml → String
  | .integer i => toString i
  | .real s => s
  | .string s => s
  | .boolean b => if b then "true" else "false"
  | _ => ""

/-- Rust `str::trim_start_matches` on character lists, with a fuel
parameter so the definition is structural: each successful removal of a
nonempty prefix shortens the list, so `s.length` steps always suffice. -/
def trimAux (p : List Char) : Nat → List Char → List Char
  | 0, s => s
  | fuel + 1, s =>
    if p ≠ [] ∧ p.isPrefixOf s then trimAux p fuel (s.drop p.length) else s

/-- Rust `str::trim_start_matches` on strings: repeatedly remove the
pattern while it is a prefix. -/
def trimStartMatches (pat s : String) : String :=
  ⟨trimAux pat.data (s.data.length + 1) s.data⟩

namespace OperatorArgs

/-- The private `OperatorArgs::badvalue` helper: set the `badvalue`
sentinel name, record the cause, signal failure. -/
def badvalue (s : OperatorArgs) (cause : String) : Bool × OperatorArgs :=
  (false, (s.setName "badvalue").insert "cause" cause)

/-- Document-index location in `populate`: index 0 when the selector is
empty, else the first document in which the selector is present. -/
def locateIndex (docs : List Yaml) (which : String) : Option Nat :=
  if which != "" then docs.findIdx? (fun doc => !(doc.index which).is_badvalue)
  else some 0

/-- The main-entry-name scan of `populate` (only run for an empty
selector): reject bad values, skip underscore keys, reject a second
non-underscore key. `none` models the `unwrap` panic on a non-string key;
`Except.error` is a soft `badvalue` cause. -/
def findMainEntryName : List (Yaml × Yaml) → String → Option (Except String String)
  | [], acc => some (Except.ok acc)
  | (arg, val) :: rest, acc =>
    if val.is_badvalue then some (Except.error "Cannot parse definition")
    else
      match arg.as_str with
      | none => none
      | some name =>
        if starts_with name '_' then findMainEntryName rest acc
        else if acc ≠ "" then some (Except.error "Too many items in definition root")
        else findMainEntryName rest name

/-- The globals loop of `populate`: coerce each scalar entry, skip the key
`inv`, drop entries whose coerced text is empty. `none` models the
`unwrap` panic on a non-string key. -/
def processGlobals : List (Yaml × Yaml) → OperatorArgs → Option OperatorArgs
  | [], s => some s
  | (arg, val) :: rest, s =>
    match arg.as_str with
    | none => none
    | some thearg =>
      if thearg ≠ "inv" then
        let theval := scalarText val
        if theval ≠ "" then processGlobals rest (s.insert thearg theval)
        else processGlobals rest s
      else processGlobals rest s

/-- The plain-operator args loop of `populate`: coerce each scalar entry,
drop entries whose coerced text is empty. `none` models the `unwrap`
panic on a non-string key. -/
def insertArgs : List (Yaml × Yaml) → OperatorArgs → Option OperatorArgs
  | [], s => some s
  | (arg, val) :: rest, s =>
    match arg.as_str with
    | none => none
    | some thearg =>
      let theval := scalarText val
      if theval ≠ "" then insertArgs rest (s.insert thearg theval)
      else insertArgs rest s

/-- The step-serialization loop of `populate`: store each step, serialized
by the emitter and with leading document separators trimmed, under
`_step_<index>`. -/
def insertStepsFrom (emit : Yaml → String) (i : Nat) :
    List Yaml → OperatorArgs → OperatorArgs
  | [], s => s
  | step :: rest, s =>
    let step_definition := emit step
    let stripped_definition := trimStartMatches "---\n" step_definition
    insertStepsFrom emit (i + 1) rest (s.insert ("_step_" ++ toString i) stripped_definition)

/-- The `OperatorArgs::populate` method. The YAML parse is external, so the
function takes both the raw `definition` text (stored under
`_definition`) and the parsed multi-document list `docs`; `emit` is the
external YAML emitter used for pipeline steps. The result is `none` when
the original code panics, otherwise the returned boolean and the final
store. -/
def populate (emit : Yaml → String) (definition : String) (docs : List Yaml)
    (which : String) (s : OperatorArgs) : Option (Bool × OperatorArgs) :=
  let s := s.insert "_definition" definition
  match locateIndex docs which with
  | none => some (badvalue s "Cannot locate definition")
  | some index =>
    match docs.get? index with
    | none => none
    | some doc =>
      match doc.as_hash with
      | none => some (badvalue s "Cannot parse definition")
      | some main =>
        match (if which = "" then findMainEntryName main "" else some (Except.ok which)) with
        | none => none
        | some (Except.error cause) => some (badvalue s cause)
        | some (Except.ok main_entry_name) =>
          let s := s.setName main_entry_name
          let main_entry := doc.index main_entry_name
          if main_entry.is_badvalue then some (badvalue s "Cannot locate definition")
          else
            match
              (match (main_entry.index "globals").as_hash with
               | some globals => processGlobals globals s
               | none => some s) with
            | none => none
            | some s =>
              match (main_entry.index "steps").as_vec with
              | none =>
                match main_entry.as_hash with
                | none => some (badvalue s "Cannot read args")
                | some args =>
                  match insertArgs args s with
                  | none => none
                  | some s => some (true, s)
              | some steps =>
                let s := s.insert "_nsteps" (toString steps.length)
                some (true, insertStepsFrom emit 0 steps s)

/-- The `OperatorArgs::with_globals_from` constructor: a fresh store
inheriting every parent arg except underscore-prefixed keys and `inv`
(the copy loop is modelled extensionally as a filter), then populated from
the definition; the boolean result of `populate` is discarded, as in the
source. -/
def with_globals_from (emit : Yaml → String) (existing : OperatorArgs)
    (definition : String) (docs : List Yaml) (which : String) : Option OperatorArgs :=
  let oa : OperatorArgs :=
    { OperatorArgs.new with
      args := fun k => if starts_with k '_' || k == "inv" then none else existing.args k }
  match populate emit definition docs which oa with
  | none => none
  | some (_, oa) => some oa

end OperatorArgs

/-!
Derived predicates and concrete inputs used in the verification below.
-/

/-- Spec invariant: every key present in `used` is present in `all_used`. -/
def usedSubset (t : OperatorArgs) : Prop :=
  ∀ k, (t.used k).isSome = true → (t.all_used k).isSome = true

/-- Spec invariant: `_nsteps`, when present, holds the decimal text of the
number of `_step_<i>` keys, and those are numbered contiguously from 0. -/
def nstepsInvariant (t : OperatorArgs) : Prop :=
  ∀ v, t.args "_nsteps" = some v →
    ∃ n : Nat, v = toString n ∧
      ∀ i : Nat, (t.args ("_step_" ++ toString i)).isSome = true ↔ i < n

/-- Relation used to compare two runs of the loader that differ only in
the initial store: at every key both runs left their input untouched, or
both performed the same insertion, leaving the same present value. -/
def RelArgs (s₁ s₂ t₁ t₂ : OperatorArgs) : Prop :=
  ∀ k, (t₁.args k = s₁.args k ∧ t₂.args k = s₂.args k) ∨
    (∃ w, t₁.args k = some w ∧ t₂.args k = some w)

/-- Numeric value of a decimal digit character. -/
def decDigit (c : Char) : Nat := c.toNat - 48

/-- Numeric value of a decimal digit string, most significant first. -/
def valDigits (l : List Char) : Nat := l.foldl (fun a c => 10 * a + decDigit c) 0

/-- A trivial concrete emitter for witnesses. -/
def emit0 : Yaml → String := fun _ => ""

/-- A concrete emitter producing serializer-style output for witnesses. -/
def emitCart : Yaml → String := fun _ => "---\ncart: 1"

/-- The store of the crate's unit test: two levels of indirection under
`dz`. -/
def chainStore : OperatorArgs :=
  (((OperatorArgs.new.insert "dx" "11").insert "dz" "^ddz").insert "ddz"
    "^dddz").insert "dddz" "33"

/-- A store holding the string `"0"`, for the `flag` truthiness witness. -/
def zeroStore : OperatorArgs := OperatorArgs.new.insert "z" "0"

/-- A store holding the string `"false"`, for the `flag` falsiness witness. -/
def falseStore : OperatorArgs := OperatorArgs.new.insert "f" "false"

/-- A concrete stand-in for `str::parse::<f64>` that accepts only `"33"`. -/
def parse0 : String → Option Float := fun s => if s = "33" then some 33.0 else none

/-- Parsed form of a one-step pipeline definition `pipe: {steps: [cart: 1]}`. -/
def pipeDocs : List Yaml :=
  [Yaml.hash [(Yaml.string "pipe", Yaml.hash [(Yaml.string "steps",
    Yaml.array [Yaml.hash [(Yaml.string "cart", Yaml.integer 1)]])])]]

/-- Parsed form of the plain-operator definition `cart: {ellps: intl}`. -/
def cartDocs : List Yaml :=
  [Yaml.hash [(Yaml.string "cart", Yaml.hash [(Yaml.string "ellps", Yaml.string "intl")])]]

/-- Parsed form of `1: {ellps: intl}`: a parseable document whose root
mapping has a non-string (integer) key. -/
def intKeyDocs : List Yaml :=
  [Yaml.hash [(Yaml.integer 1, Yaml.hash [(Yaml.string "ellps", Yaml.string "intl")])]]

/-- Parsed form of `_x: 1`: a root mapping with zero non-underscore keys. -/
def underscoreDocs : List Yaml :=
  [Yaml.hash [(Yaml.string "_x", Yaml.string "1")]]

/-- Parsed form of a document whose root is a plain scalar. -/
def scalarDocs : List Yaml := [Yaml.string "x"]

/-- A parent store with one ordinary key, one underscore key and `inv`. -/
def parentStore : OperatorArgs :=
  ((OperatorArgs.new.insert "k1" "v1").insert "_hidden" "h").insert "inv" "i"

/-- The result of loading a scalar-rooted document, for the C3 witness. -/
def scalarResult : Bool × OperatorArgs :=
  (OperatorArgs.populate emit0 "x" scalarDocs "" OperatorArgs.new).getD (true, OperatorArgs.new)

/-- The result of loading the one-step pipeline, for the C2 and C7
witnesses. -/
def pipeResult : Bool × OperatorArgs :=
  (OperatorArgs.populate emitCart "d" pipeDocs "pipe" OperatorArgs.new).getD
    (false, OperatorArgs.new)

/-- The store derived from `parentStore` by loading `cart: {ellps: intl}`,
for the C5 witness. -/
def deriveResult : OperatorArgs :=
  (OperatorArgs.with_globals_from emit0 parentStore "d" cartDocs "").getD OperatorArgs.new

/-- The store obtained by the same load from a fresh parent, for the C5
witness. -/
def deriveBase : OperatorArgs :=
  (OperatorArgs.with_globals_from emit0 OperatorArgs.new "d" cartDocs "").getD OperatorArgs.new

/-!
Helper lemmas: map insertion, decimal representation, key distinctness.
-/

theorem mapInsert_same (m : String → Option String) (k v : String) :
    mapInsert m k v k = some v := by
  simp [mapInsert]

theorem mapInsert_other (m : String → Option String) (k v q : String) (h : q ≠ k) :
    mapInsert m k v q = m q := by
  simp [mapInsert, h]

theorem valDigits_append (l : List Char) (c : Char) :
    valDigits (l ++ [c]) = 10 * valDigits l + decDigit c := by
  simp [valDigits, List.foldl_append]

theorem decDigit_digitChar (d : Nat) (h : d < 10) :
    decDigit (Nat.digitChar d) = d := by
  interval_cases d <;> rfl

theorem toDigitsCore_acc (b : Nat) :
    ∀ (f n : Nat) (acc : List Char),
      Nat.toDigitsCore b f n acc = Nat.toDigitsCore b f n [] ++ acc := by
  intro f
  induction f with
  | zero => intro n acc; simp [Nat.toDigitsCore]
  | succ f ih =>
    intro n acc
    simp only [Nat.toDigitsCore]
    by_cases h0 : n / b = 0
    · simp [h0]
    · simp only [h0, if_false]
      rw [ih (n / b) (Nat.digitChar (n % b) :: acc), ih (n / b) [Nat.digitChar (n % b)]]
      simp

theorem valDigits_toDigitsCore :
    ∀ (f n : Nat), n < f → valDigits (Nat.toDigitsCore 10 f n []) = n := by
  intro f
  induction f with
  | zero => intro n hn; omega
  | succ f ih =>
    intro n hn
    simp only [Nat.toDigitsCore]
    by_cases h0 : n / 10 = 0
    · have hlt : n < 10 := by omega
      simp [h0, valDigits, Nat.mod_eq_of_lt hlt, decDigit_digitChar n hlt]
    · simp only [h0, if_false]
      rw [toDigitsCore_acc, valDigits_append]
      have hdiv : n / 10 < n := Nat.div_lt_self (by omega) (by norm_num)
      rw [ih (n / 10) (by omega)]
      rw [decDigit_digitChar (n % 10) (Nat.mod_lt n (by norm_num))]
      omega

theorem natRepr_injective {a b : Nat} (h : Nat.repr a = Nat.repr b) : a = b := by
  have hd : Nat.toDigits 10 a = Nat.toDigits 10 b := by
    have := congrArg String.data h
    simpa [Nat.repr, List.asString] using this
  have ha := valDigits_toDigitsCore (a + 1) a (Nat.lt_succ_self a)
  have hb := valDigits_toDigitsCore (b + 1) b (Nat.lt_succ_self b)
  rw [show Nat.toDigitsCore 10 (a + 1) a [] = Nat.toDigits 10 a from rfl] at ha
  rw [show Nat.toDigitsCore 10 (b + 1) b [] = Nat.toDigits 10 b from rfl] at hb
  rw [hd, hb] at ha
  omega

theorem stepKey_inj {i j : Nat}
    (h : "_step_" ++ toString i = "_step_" ++ toString j) : i = j := by
  have hdat := congrArg String.data h
  rw [String.data_append, String.data_append] at hdat
  have : (toString i : String).data = (toString j : String).data :=
    List.append_cancel_left hdat
  have hs : (toString i : String) = toString j := by
    cases hti : (toString i : String)
    cases htj : (toString j : String)
    simp_all
  exact natRepr_injective hs

theorem nsteps_ne_stepKey (x : String) : "_nsteps" ≠ "_step_" ++ x := by
  intro h
  have hdat := congrArg String.data h
  rw [String.data_append] at hdat
  simp [show ("_nsteps" : String).data = ['_', 'n', 's', 't', 'e', 'p', 's'] from rfl,
    show ("_step_" : String).data = ['_', 's', 't', 'e', 'p', '_'] from rfl] at hdat

theorem definition_ne_stepKey (x : String) : "_definition" ≠ "_step_" ++ x := by
  intro h
  have hdat := congrArg String.data h
  rw [String.data_append] at hdat
  simp [show ("_definition" : String).data =
      ['_', 'd', 'e', 'f', 'i', 'n', 'i', 't', 'i', 'o', 'n'] from rfl,
    show ("_step_" : String).data = ['_', 's', 't', 'e', 'p', '_'] from rfl] at hdat

/-!
Lemmas about the value resolver.
-/

open OperatorArgs

theorem vrs_frame (fuel : Nat) :
    ∀ (key default : String) (s : OperatorArgs),
      ((value_recursive_search fuel key default s).2.args = s.args) ∧
      ((value_recursive_search fuel key default s).2.name = s.name) ∧
      ((value_recursive_search fuel key default s).2.used = s.used) := by
  induction fuel with
  | zero => intro key default s; exact ⟨rfl, rfl, rfl⟩
  | succ fuel ih =>
    intro key default s
    cases h : s.args key with
    | none => simp [value_recursive_search, h]
    | some arg =>
      cases hc : stripCaret arg with
      | some rest =>
        simp only [value_recursive_search, h, hc]
        simpa using ih rest default { s with all_used := mapInsert s.all_used key arg }
      | none => simp [value_recursive_search, h, hc]

theorem vrs_all_used_mono (fuel : Nat) :
    ∀ (key default q : String) (s : OperatorArgs),
      ((value_recursive_search fuel key default s).2.all_used q = s.all_used q) ∨
      ((value_recursive_search fuel key default s).2.all_used q).isSome = true := by
  induction fuel with
  | zero => intro key default q s; exact Or.inl rfl
  | succ fuel ih =>
    intro key default q s
    cases h : s.args key with
    | none => simp [value_recursive_search, h]
    | some arg =>
      cases hc : stripCaret arg with
      | some rest =>
        simp only [value_recursive_search, h, hc]
        rcases ih rest default q { s with all_used := mapInsert s.all_used key arg } with h1 | h1
        · by_cases hq : q = key
          · subst hq
            right
            rw [h1]
            simp [mapInsert]
          · left
            rw [h1]
            exact mapInsert_other _ _ _ _ hq
        · exact Or.inr h1
      | none =>
        simp only [value_recursive_search, h, hc]
        by_cases hq : q = key
        · subst hq
          right
          simp [mapInsert]
        · left
          exact mapInsert_other _ _ _ _ hq

theorem vrs_all_used_preserve (fuel : Nat) :
    ∀ (key default q a : String) (s : OperatorArgs),
      s.args q = some a → s.all_used q = some a →
      ((value_recursive_search fuel key default s).2.all_used q = some a) := by
  induction fuel with
  | zero => intro key default q a s _ h2; exact h2
  | succ fuel ih =>
    intro key default q a s h1 h2
    cases h : s.args key with
    | none => simp only [value_recursive_search, h]; exact h2
    | some arg =>
      have hq : mapInsert s.all_used key arg q = some a := by
        by_cases hqk : q = key
        · subst hqk
          rw [h1] at h
          injection h with h
          rw [mapInsert_same, h]
        · rw [mapInsert_other _ _ _ _ hqk]; exact h2
      cases hc : stripCaret arg with
      | some rest =>
        simp only [value_recursive_search, h, hc]
        exact ih rest default q a _ h1 hq
      | none => simp only [value_recursive_search, h, hc]; exact hq

theorem vrs_records (fuel : Nat) (key default arg : String) (s : OperatorArgs)
    (h : s.args key = some arg) :
    (value_recursive_search (fuel + 1) key default s).2.all_used key = some arg := by
  simp only [value_recursive_search, h]
  cases hc : stripCaret arg with
  | some rest =>
    exact vrs_all_used_preserve fuel rest default key arg _ h (mapInsert_same _ _ _)
  | none => exact mapInsert_same _ _ _

theorem vrs_cases (fuel : Nat) :
    ∀ (key default v : String) (s t : OperatorArgs),
      value_recursive_search fuel key default s = (some v, t) →
      (v = default ∧ t = s) ∨ (t.all_used key).isSome = true := by
  induction fuel with
  | zero =>
    intro key default v s t h
    simp [value_recursive_search] at h
  | succ fuel ih =>
    intro key default v s t h
    cases harg : s.args key with
    | none =>
      simp only [value_recursive_search, harg] at h
      injection h with h1 h2
      injection h1 with h1
      exact Or.inl ⟨h1.symm, h2.symm⟩
    | some arg =>
      right
      cases hc : stripCaret arg with
      | some rest =>
        simp only [value_recursive_search, harg, hc] at h
        have := vrs_all_used_preserve fuel rest default key arg
          { s with all_used := mapInsert s.all_used key arg } harg (mapInsert_same _ _ _)
        rw [h] at this
        have h2 : t.all_used key = some arg := this
        rw [h2]
        rfl
      | none =>
        simp only [value_recursive_search, harg, hc] at h
        injection h with h1 h2
        rw [← h2]
        simp [mapInsert_same]

theorem value_eq_of_vrs (fuel : Nat) (key default v : String) (s t : OperatorArgs)
    (h : value_recursive_search fuel key default s = (some v, t)) :
    value fuel key default s =
      (some v, if v = default then t else { t with used := mapInsert t.used key v }) := by
  simp only [value, h]
  by_cases hv : v = default
  · simp [hv]
  · simp [hv]

theorem value_store_effects (fuel : Nat) (key default : String) (s : OperatorArgs) :
    (value fuel key default s).2.args = s.args ∧
    (value fuel key default s).2.name = s.name ∧
    (∀ q, (value fuel key default s).2.used q = s.used q ∨
      ((value fuel key default s).2.used q).isSome = true) ∧
    (∀ q, (value fuel key default s).2.all_used q = s.all_used q ∨
      ((value fuel key default s).2.all_used q).isSome = true) := by
  have hf := vrs_frame fuel key default s
  cases hv : value_recursive_search fuel key default s with
  | mk r t =>
    rw [hv] at hf
    have hm : ∀ q, t.all_used q = s.all_used q ∨ (t.all_used q).isSome = true := by
      intro q
      have := vrs_all_used_mono fuel key default q s
      rw [hv] at this
      exact this
    cases r with
    | none =>
      have hval : value fuel key default s = (none, t) := by simp [value, hv]
      rw [hval]
      exact ⟨hf.1, hf.2.1, fun q => Or.inl (by rw [hf.2.2]), hm⟩
    | some v =>
      have hval := value_eq_of_vrs fuel key default v s t hv
      rw [hval]
      by_cases hd : v = default
      · rw [if_pos hd]
        exact ⟨hf.1, hf.2.1, fun q => Or.inl (by rw [hf.2.2]), hm⟩
      · rw [if_neg hd]
        refine ⟨hf.1, hf.2.1, fun q => ?_, hm⟩
        by_cases hq : q = key
        · subst hq
          right
          simp [mapInsert]
        · left
          have : mapInsert t.used key v q = t.used q := mapInsert_other _ _ _ _ hq
          rw [show ({ t with used := mapInsert t.used key v } : OperatorArgs).used q =
            mapInsert t.used key v q from rfl, this, hf.2.2]

theorem numeric_value_store (parse : String → Option Float) (fuel : Nat)
    (operator_name key : String) (default : Float) (s : OperatorArgs) :
    (numeric_value parse fuel operator_name key default s).2 = (value fuel key "" s).2 := by
  cases hv : value fuel key "" s with
  | mk r t =>
    cases r with
    | none => simp [numeric_value, hv]
    | some arg =>
      by_cases he : arg.isEmpty
      · simp [numeric_value, hv, he]
      · cases hp : parse arg with
        | none => simp [numeric_value, hv, he, hp]
        | some x => simp [numeric_value, hv, he, hp]

theorem flag_store (fuel : Nat) (key : String) (s : OperatorArgs) :
    (flag fuel key s).2 = (value fuel key "false" s).2 := by
  cases hv : value fuel key "false" s with
  | mk r t =>
    cases r with
    | none => simp [flag, hv]
    | some arg => simp [flag, hv]

/-!
Claims about the value resolver.
-/

/-- C1: full contract of the value resolver. An absent key returns the
default with no tracking side effect at all; a present key records its
raw stored string under `all_used[key]`; a raw string starting with `^`
makes the search recurse on the remainder with the same default (and an
absent key at any hop then yields the default, by the first conjunct at
that hop); after the chain resolves to `v`, `used` at the original outer
key is set to `v` exactly when `v` differs from the default, and `v` is
returned. -/
theorem claim_C1 : ∀ (s : OperatorArgs) (key default : String) (fuel : Nat),
    (s.args key = none → value (fuel + 1) key default s = (some default, s)) ∧
    (∀ arg, s.args key = some arg →
      ((value_recursive_search (fuel + 1) key default s).2.all_used key = some arg) ∧
      (∀ rest, stripCaret arg = some rest →
        value_recursive_search (fuel + 1) key default s =
          value_recursive_search fuel rest default
            { s with all_used := mapInsert s.all_used key arg }) ∧
      (stripCaret arg = none →
        value_recursive_search (fuel + 1) key default s =
          (some arg, { s with all_used := mapInsert s.all_used key arg }))) ∧
    (∀ v t, value_recursive_search fuel key default s = (some v, t) →
      t.used = s.used ∧
      value fuel key default s =
        (some v, if v = default then t else { t with used := mapInsert t.used key v }) ∧
      (v ≠ default → ((value fuel key default s).2).used key = some v) ∧
      (v = default → ((value fuel key default s).2).used key = s.used key)) := by
  intro s key default fuel
  refine ⟨?_, ?_, ?_⟩
  · intro h
    simp [value, value_recursive_search, h]
  · intro arg harg
    refine ⟨vrs_records fuel key default arg s harg, ?_, ?_⟩
    · intro rest hrest
      simp [value_recursive_search, harg, hrest]
    · intro hrest
      simp [value_recursive_search, harg, hrest]
  · intro v t h
    have hused := (vrs_frame fuel key default s).2.2
    rw [h] at hused
    have hval := value_eq_of_vrs fuel key default v s t h
    refine ⟨hused, hval, ?_, ?_⟩
    · intro hne
      rw [hval, if_neg hne]
      exact mapInsert_same _ _ _
    · intro heq
      rw [hval, if_pos heq]
      rw [hused]

/-- C1 witness: instantiations of the contract on the crate's unit-test
store (absent key, raw recording at `dz`, and `used` update after the
two-hop chain `dz → ddz → dddz`). -/
theorem claim_C1_witness :
    (chainStore.args "nope" = none ∧
      value 6 "nope" "dd" chainStore = (some "dd", chainStore)) ∧
    (chainStore.args "dz" = some "^ddz" ∧
      (value_recursive_search 6 "dz" "" chainStore).2.all_used "dz" = some "^ddz") ∧
    ((value 5 "dz" "" chainStore).2).used "dz" = some "33" := by
  refine ⟨⟨rfl, (claim_C1 chainStore "nope" "dd" 5).1 rfl⟩,
    ⟨rfl, ((claim_C1 chainStore "dz" "" 5).2.1 "^ddz" rfl).1⟩, ?_⟩
  have h1 : (value_recursive_search 5 "dz" "" chainStore).1 = some "33" := rfl
  have h : value_recursive_search 5 "dz" "" chainStore =
      (some "33", (value_recursive_search 5 "dz" "" chainStore).2) := by
    rw [← h1]
  exact ((claim_C1 chainStore "dz" "" 5).2.2 "33" _ h).2.2.1 (by decide)

/-- C8: `numeric_value` returns `Ok default` when the key is absent or the
resolution yields the empty string, `Ok x` when the resolved text parses
as a number, and otherwise the exact descriptive error string naming the
operator, the key and the offending raw text. -/
theorem claim_C8 : ∀ (parse : String → Option Float) (fuel : Nat)
    (operator_name key : String) (default : Float) (s t : OperatorArgs),
    (s.args key = none →
      numeric_value parse (fuel + 1) operator_name key default s =
        (some (Except.ok default), s)) ∧
    (value fuel key "" s = (some "", t) →
      numeric_value parse fuel operator_name key default s = (some (Except.ok default), t)) ∧
    (∀ arg x, value fuel key "" s = (some arg, t) → arg.isEmpty = false →
      parse arg = some x →
      numeric_value parse fuel operator_name key default s = (some (Except.ok x), t)) ∧
    (∀ arg, value fuel key "" s = (some arg, t) → arg.isEmpty = false → parse arg = none →
      numeric_value parse fuel operator_name key default s =
        (some (Except.error ("Numeric value expected for '" ++ operator_name ++ "." ++ key ++
          "' - got [" ++ key ++ ": " ++ arg ++ "].")), t)) := by
  intro parse fuel operator_name key default s t
  have hemp : ("" : String).isEmpty = true := rfl
  refine ⟨?_, ?_, ?_, ?_⟩
  · intro h
    simp [numeric_value, value, value_recursive_search, h, hemp]
  · intro h
    simp [numeric_value, h, hemp]
  · intro arg x h he hp
    simp [numeric_value, h, he, hp]
  · intro arg h he hp
    simp [numeric_value, h, he, hp]

/-- C8 witness: on the unit-test store with a parse function accepting
only `"33"`, an absent key defaults, the indirected key `dz` parses to
`33.0`, and the non-numeric `dx` yields the exact error text. -/
theorem claim_C8_witness :
    (chainStore.args "bar" = none ∧
      numeric_value parse0 6 "foo" "bar" 42.0 chainStore =
        (some (Except.ok 42.0), chainStore)) ∧
    numeric_value parse0 5 "foo" "dz" 42.0 chainStore =
      (some (Except.ok 33.0), (value 5 "dz" "" chainStore).2) ∧
    numeric_value parse0 5 "bar" "dx" 0.0 chainStore =
      (some (Except.error "Numeric value expected for 'bar.dx' - got [dx: 11]."),
        (value 5 "dx" "" chainStore).2) := by
  refine ⟨⟨rfl, (claim_C8 parse0 5 "foo" "bar" 42.0 chainStore chainStore).1 rfl⟩, ?_, ?_⟩
  · have h1 : (value 5 "dz" "" chainStore).1 = some "33" := rfl
    have h : value 5 "dz" "" chainStore = (some "33", (value 5 "dz" "" chainStore).2) := by
      rw [← h1]
    exact (claim_C8 parse0 5 "foo" "dz" 42.0 chainStore _).2.2.1 "33" 33.0 h rfl rfl
  · have h1 : (value 5 "dx" "" chainStore).1 = some "11" := rfl
    have h : value 5 "dx" "" chainStore = (some "11", (value 5 "dx" "" chainStore).2) := by
      rw [← h1]
    exact (claim_C8 parse0 5 "bar" "dx" 0.0 chainStore _).2.2.2 "11" h rfl rfl

/-- C9: `flag` is the test `resolve(key, "false") != "false"`: false on an
absent key, and for a chain resolving to `v` it is exactly `v != "false"`
(so `"0"` is truthy and only the literal `"false"` is falsy). -/
theorem claim_C9 : ∀ (fuel : Nat) (key : String) (s : OperatorArgs),
    ((flag fuel key s).1 = (value fuel key "false" s).1.map (fun a => a != "false")) ∧
    (s.args key = none → flag (fuel + 1) key s = (some false, s)) ∧
    (∀ v t, value_recursive_search fuel key "false" s = (some v, t) →
      (flag fuel key s).1 = some (v != "false")) := by
  intro fuel key s
  refine ⟨?_, ?_, ?_⟩
  · cases hv : value fuel key "false" s with
    | mk r t =>
      cases r with
      | none => simp [flag, hv]
      | some arg => simp [flag, hv]
  · intro h
    simp [flag, value, value_recursive_search, h]
  · intro v t h
    have hval := value_eq_of_vrs fuel key "false" v s t h
    simp [flag, hval]

/-- C9 witness: absent key is false, a stored `"0"` is truthy, a stored
`"false"` is falsy. -/
theorem claim_C9_witness :
    (zeroStore.args "nope" = none ∧ flag 3 "nope" zeroStore = (some false, zeroStore)) ∧
    (flag 2 "z" zeroStore).1 = some true ∧
    (flag 2 "f" falseStore).1 = some false := by
  refine ⟨⟨rfl, (claim_C9 2 "nope" zeroStore).2.1 rfl⟩, ?_, ?_⟩
  · have h : value_recursive_search 2 "z" "false" zeroStore =
        (some "0", (value_recursive_search 2 "z" "false" zeroStore).2) := rfl
    exact (claim_C9 2 "z" zeroStore).2.2 "0" _ h
  · have h : value_recursive_search 2 "f" "false" falseStore =
        (some "false", (value_recursive_search 2 "f" "false" falseStore).2) := rfl
    exact (claim_C9 2 "f" falseStore).2.2 "false" _ h

/-- C10: the query operations `value`, `numeric_value` and `flag` never
change `args` or `name`; at every key of `used` and `all_used` they
either leave the entry alone or leave some entry present (they only add
tracking entries, never remove any). -/
theorem claim_C10 : ∀ (fuel : Nat) (key default : String) (s : OperatorArgs)
    (parse : String → Option Float) (operator_name : String) (d : Float),
    ((value fuel key default s).2.args = s.args ∧
     (value fuel key default s).2.name = s.name ∧
     (∀ q, (value fuel key default s).2.used q = s.used q ∨
       ((value fuel key default s).2.used q).isSome = true) ∧
     (∀ q, (value fuel key default s).2.all_used q = s.all_used q ∨
       ((value fuel key default s).2.all_used q).isSome = true)) ∧
    ((numeric_value parse fuel operator_name key d s).2.args = s.args ∧
     (numeric_value parse fuel operator_name key d s).2.name = s.name ∧
     (∀ q, (numeric_value parse fuel operator_name key d s).2.used q = s.used q ∨
       ((numeric_value parse fuel operator_name key d s).2.used q).isSome = true) ∧
     (∀ q, (numeric_value parse fuel operator_name key d s).2.all_used q = s.all_used q ∨
       ((numeric_value parse fuel operator_name key d s).2.all_used q).isSome = true)) ∧
    ((flag fuel key s).2.args = s.args ∧
     (flag fuel key s).2.name = s.name ∧
     (∀ q, (flag fuel key s).2.used q = s.used q ∨
       ((flag fuel key s).2.used q).isSome = true) ∧
     (∀ q, (flag fuel key s).2.all_used q = s.all_used q ∨
       ((flag fuel key s).2.all_used q).isSome = true)) := by
  intro fuel key default s parse operator_name d
  refine ⟨value_store_effects fuel key default s, ?_, ?_⟩
  · have h := numeric_value_store parse fuel operator_name key d s
    rw [h]
    exact value_store_effects fuel key "" s
  · have h := flag_store fuel key s
    rw [h]
    exact value_store_effects fuel key "false" s

/-!
Lemmas about the definition loader.
-/

theorem processGlobals_tracking :
    ∀ (l : List (Yaml × Yaml)) (s t : OperatorArgs), processGlobals l s = some t →
      t.used = s.used ∧ t.all_used = s.all_used ∧ t.name = s.name := by
  intro l
  induction l with
  | nil =>
    intro s t h
    simp only [processGlobals] at h
    injection h with h
    subst h
    exact ⟨rfl, rfl, rfl⟩
  | cons p rest ih =>
    intro s t h
    obtain ⟨arg, val⟩ := p
    cases ha : arg.as_str with
    | none => simp [processGlobals, ha] at h
    | some thearg =>
      simp only [processGlobals, ha] at h
      by_cases hinv : thearg ≠ "inv"
      · rw [if_pos hinv] at h
        by_cases hv : scalarText val ≠ ""
        · rw [if_pos hv] at h
          exact ih (s.insert thearg (scalarText val)) t h
        · rw [if_neg hv] at h
          exact ih s t h
      · rw [if_neg hinv] at h
        exact ih s t h

theorem insertArgs_tracking :
    ∀ (l : List (Yaml × Yaml)) (s t : OperatorArgs), insertArgs l s = some t →
      t.used = s.used ∧ t.all_used = s.all_used ∧ t.name = s.name := by
  intro l
  induction l with
  | nil =>
    intro s t h
    simp only [insertArgs] at h
    injection h with h
    subst h
    exact ⟨rfl, rfl, rfl⟩
  | cons p rest ih =>
    intro s t h
    obtain ⟨arg, val⟩ := p
    cases ha : arg.as_str with
    | none => simp [insertArgs, ha] at h
    | some thearg =>
      simp only [insertArgs, ha] at h
      by_cases hv : scalarText val ≠ ""
      · rw [if_pos hv] at h
        exact ih (s.insert thearg (scalarText val)) t h
      · rw [if_neg hv] at h
        exact ih s t h

theorem insertSteps_tracking (emit : Yaml → String) :
    ∀ (l : List Yaml) (i : Nat) (s : OperatorArgs),
      (insertStepsFrom emit i l s).used = s.used ∧
      (insertStepsFrom emit i l s).all_used = s.all_used ∧
      (insertStepsFrom emit i l s).name = s.name := by
  intro l
  induction l with
  | nil => intro i s; exact ⟨rfl, rfl, rfl⟩
  | cons step rest ih =>
    intro i s
    simpa [insertStepsFrom] using
      ih (i + 1) (s.insert ("_step_" ++ toString i) (trimStartMatches "---\n" (emit step)))

theorem snd_of_pair_eq {α β : Type} {A : α × β} {b : α} {t : β} (h : A = (b, t)) :
    t = A.2 := by rw [h]

theorem populate_tracking (emit : Yaml → String) (definition : String) (docs : List Yaml)
    (which : String) (s : OperatorArgs) (b : Bool) (t : OperatorArgs)
    (h : populate emit definition docs which s = some (b, t)) :
    t.used = s.used ∧ t.all_used = s.all_used := by
  unfold populate at h
  dsimp only at h
  split at h
  · injection h with h
    rw [snd_of_pair_eq h]
    exact ⟨rfl, rfl⟩
  · split at h
    · exact absurd h (by simp)
    · split at h
      · injection h with h
        rw [snd_of_pair_eq h]
        exact ⟨rfl, rfl⟩
      · split at h
        · exact absurd h (by simp)
        · injection h with h
          rw [snd_of_pair_eq h]
          exact ⟨rfl, rfl⟩
        · split at h
          · injection h with h
            rw [snd_of_pair_eq h]
            exact ⟨rfl, rfl⟩
          · split at h
            · exact absurd h (by simp)
            · rename_i s1 hglob
              have hg1 : s1.used = s.used ∧ s1.all_used = s.all_used := by
                split at hglob
                · have h2 := processGlobals_tracking _ _ _ hglob
                  exact ⟨h2.1, h2.2.1⟩
                · injection hglob with hglob
                  rw [← hglob]
                  exact ⟨rfl, rfl⟩
              split at h
              · split at h
                · injection h with h
                  rw [snd_of_pair_eq h]
                  exact ⟨hg1.1, hg1.2⟩
                · split at h
                  · exact absurd h (by simp)
                  · rename_i s2 hargs
                    have h2 := insertArgs_tracking _ _ _ hargs
                    injection h with h
                    rw [snd_of_pair_eq h]
                    exact ⟨h2.1.trans hg1.1, h2.2.1.trans hg1.2⟩
              · rename_i steps hsteps
                injection h with h
                rw [snd_of_pair_eq h]
                have h2 := insertSteps_tracking emit steps 0
                  (s1.insert "_nsteps" (toString steps.length))
                exact ⟨(h2.1).trans hg1.1, (h2.2.1).trans hg1.2⟩

theorem findMainEntryName_underscore :
    ∀ (l : List (Yaml × Yaml)) (acc : String),
      (∀ p ∈ l, p.2.is_badvalue = false ∧
        ∃ nm, p.1.as_str = some nm ∧ starts_with nm '_' = true) →
      findMainEntryName l acc = some (Except.ok acc) := by
  intro l
  induction l with
  | nil => intro acc _; rfl
  | cons p rest ih =>
    intro acc hall
    obtain ⟨hbad, nm, hstr, hund⟩ := hall p (by simp)
    obtain ⟨arg, val⟩ := p
    simp only [findMainEntryName, hbad, hstr, hund, if_false, if_true]
    exact ih acc (fun q hq => hall q (by simp [hq]))

theorem hashGet_underscore_none :
    ∀ (l : List (Yaml × Yaml)),
      (∀ p ∈ l, ∃ nm, p.1.as_str = some nm ∧ starts_with nm '_' = true) →
      hashGet l "" = none := by
  intro l
  induction l with
  | nil => intro _; rfl
  | cons p rest ih =>
    intro hall
    obtain ⟨arg, val⟩ := p
    obtain ⟨nm, hstr, hund⟩ := hall (arg, val) (by simp)
    have hrest := ih (fun q hq => hall q (by simp [hq]))
    cases arg with
    | string a =>
      have ha : a = nm := by
        simp [Yaml.as_str] at hstr
        exact hstr
      subst ha
      have hne : a ≠ "" := by
        intro he
        subst he
        simp [starts_with] at hund
      simp [hashGet, hne, hrest]
    | real a => simpa [hashGet] using hrest
    | integer a => simpa [hashGet] using hrest
    | boolean a => simpa [hashGet] using hrest
    | array a => simpa [hashGet] using hrest
    | hash a => simpa [hashGet] using hrest
    | aliasRef a => simpa [hashGet] using hrest
    | null => simpa [hashGet] using hrest
    | badValue => simpa [hashGet] using hrest

theorem processGlobals_frame :
    ∀ (l : List (Yaml × Yaml)) (s t : OperatorArgs) (k : String),
      processGlobals l s = some t →
      (∀ p ∈ l, ∀ nm, p.1.as_str = some nm → nm ≠ k) →
      t.args k = s.args k := by
  intro l
  induction l with
  | nil =>
    intro s t k h _
    simp only [processGlobals] at h
    injection h with h
    rw [← h]
  | cons p rest ih =>
    intro s t k h hall
    obtain ⟨arg, val⟩ := p
    cases ha : arg.as_str with
    | none => simp [processGlobals, ha] at h
    | some thearg =>
      have hne : thearg ≠ k := hall (arg, val) (by simp) thearg ha
      simp only [processGlobals, ha] at h
      have hrest : ∀ p ∈ rest, ∀ nm, p.1.as_str = some nm → nm ≠ k :=
        fun q hq => hall q (by simp [hq])
      by_cases hinv : thearg ≠ "inv"
      · rw [if_pos hinv] at h
        by_cases hv : scalarText val ≠ ""
        · rw [if_pos hv] at h
          rw [ih _ _ _ h hrest]
          exact mapInsert_other _ _ _ _ hne.symm
        · rw [if_neg hv] at h
          exact ih _ _ _ h hrest
      · rw [if_neg hinv] at h
        exact ih _ _ _ h hrest

theorem insertSteps_frame (emit : Yaml → String) :
    ∀ (l : List Yaml) (i : Nat) (s : OperatorArgs) (k : String),
      (∀ j, j < l.length → k ≠ "_step_" ++ toString (i + j)) →
      (insertStepsFrom emit i l s).args k = s.args k := by
  intro l
  induction l with
  | nil => intro i s k _; rfl
  | cons step rest ih =>
    intro i s k hk
    simp only [insertStepsFrom]
    have hshift : ∀ j, j < rest.length → k ≠ "_step_" ++ toString ((i + 1) + j) := by
      intro j hj
      have := hk (j + 1) (by simp; omega)
      simpa [show i + (j + 1) = i + 1 + j by omega] using this
    rw [ih (i + 1) _ k hshift]
    have h0 : k ≠ "_step_" ++ toString i := by
      have := hk 0 (by simp)
      simpa using this
    exact mapInsert_other _ _ _ _ h0

theorem insertSteps_args_at (emit : Yaml → String) :
    ∀ (l : List Yaml) (i : Nat) (s : OperatorArgs) (j : Nat) (hj : j < l.length),
      (insertStepsFrom emit i l s).args ("_step_" ++ toString (i + j)) =
        some (trimStartMatches "---\n" (emit (l.get ⟨j, hj⟩))) := by
  intro l
  induction l with
  | nil => intro i s j hj; exact absurd hj (by simp)
  | cons step rest ih =>
    intro i s j hj
    cases j with
    | zero =>
      simp only [insertStepsFrom, Nat.add_zero]
      have hfresh : ∀ j', j' < rest.length →
          ("_step_" ++ toString i) ≠ "_step_" ++ toString ((i + 1) + j') := by
        intro j' hj' heq
        have := stepKey_inj heq
        omega
      rw [insertSteps_frame emit rest (i + 1) _ _ hfresh]
      simp only [List.get]
      exact mapInsert_same _ _ _
    | succ j' =>
      simp only [insertStepsFrom]
      have hlt : j' < rest.length := by simpa using Nat.lt_of_succ_lt_succ hj
      have := ih (i + 1)
        (s.insert ("_step_" ++ toString i) (trimStartMatches "---\n" (emit step))) j' hlt
      simpa [show i + (j' + 1) = i + 1 + j' by omega, List.get] using this

theorem vrs_usedSubset (fuel : Nat) (key default : String) (s : OperatorArgs)
    (hs : usedSubset s) : usedSubset (value_recursive_search fuel key default s).2 := by
  intro k hk
  rw [(vrs_frame fuel key default s).2.2] at hk
  rcases vrs_all_used_mono fuel key default k s with he | he
  · rw [he]
    exact hs k hk
  · exact he

theorem value_usedSubset (fuel : Nat) (key default : String) (s : OperatorArgs)
    (hs : usedSubset s) : usedSubset (value fuel key default s).2 := by
  cases hv : value_recursive_search fuel key default s with
  | mk r t0 =>
    have ht0 : usedSubset t0 := by
      have := vrs_usedSubset fuel key default s hs
      rw [hv] at this
      exact this
    cases r with
    | none =>
      have hval : value fuel key default s = (none, t0) := by simp [value, hv]
      rw [hval]
      exact ht0
    | some v =>
      rw [value_eq_of_vrs fuel key default v s t0 hv]
      by_cases hd : v = default
      · rw [if_pos hd]
        exact ht0
      · rw [if_neg hd]
        intro k hk
        by_cases hkk : k = key
        · subst hkk
          rcases vrs_cases fuel k default v s t0 hv with ⟨hveq, _⟩ | hsome
          · exact absurd hveq hd
          · exact hsome
        · have : mapInsert t0.used key v k = t0.used k := mapInsert_other _ _ _ _ hkk
          rw [show ({ t0 with used := mapInsert t0.used key v } : OperatorArgs).used k =
            mapInsert t0.used key v k from rfl, this] at hk
          exact ht0 k hk

theorem relArgs_refl (s₁ s₂ : OperatorArgs) : RelArgs s₁ s₂ s₁ s₂ :=
  fun _ => Or.inl ⟨rfl, rfl⟩

theorem relArgs_trans {s₁ s₂ m₁ m₂ t₁ t₂ : OperatorArgs} (h1 : RelArgs s₁ s₂ m₁ m₂)
    (h2 : RelArgs m₁ m₂ t₁ t₂) : RelArgs s₁ s₂ t₁ t₂ := by
  intro k
  rcases h2 k with ⟨ha, hb⟩ | ⟨w, hw1, hw2⟩
  · rcases h1 k with ⟨hd, he⟩ | ⟨w, hw1, hw2⟩
    · exact Or.inl ⟨ha.trans hd, hb.trans he⟩
    · exact Or.inr ⟨w, ha.trans hw1, hb.trans hw2⟩
  · exact Or.inr ⟨w, hw1, hw2⟩

theorem relArgs_insert_both (s₁ s₂ : OperatorArgs) (k v : String) :
    RelArgs s₁ s₂ (s₁.insert k v) (s₂.insert k v) := by
  intro q
  by_cases hq : q = k
  · subst hq
    refine Or.inr ⟨v, ?_, ?_⟩ <;> simp [OperatorArgs.insert, mapInsert]
  · exact Or.inl ⟨mapInsert_other _ _ _ _ hq, mapInsert_other _ _ _ _ hq⟩

theorem relArgs_of_insert {s₁ s₂ t₁ t₂ : OperatorArgs} (k v : String)
    (h : RelArgs (s₁.insert k v) (s₂.insert k v) t₁ t₂) : RelArgs s₁ s₂ t₁ t₂ := by
  intro q
  rcases h q with ⟨h1, h2⟩ | ⟨w, hw1, hw2⟩
  · by_cases hq : q = k
    · subst hq
      have e₁ : (s₁.insert q v).args q = some v := by simp [OperatorArgs.insert, mapInsert]
      have e₂ : (s₂.insert q v).args q = some v := by simp [OperatorArgs.insert, mapInsert]
      exact Or.inr ⟨v, h1.trans e₁, h2.trans e₂⟩
    · exact Or.inl ⟨h1.trans (mapInsert_other _ _ _ _ hq),
        h2.trans (mapInsert_other _ _ _ _ hq)⟩
  · exact Or.inr ⟨w, hw1, hw2⟩

theorem processGlobals_rel :
    ∀ (l : List (Yaml × Yaml)) (s₁ s₂ : OperatorArgs),
      (processGlobals l s₁ = none ∧ processGlobals l s₂ = none) ∨
      (∃ t₁ t₂, processGlobals l s₁ = some t₁ ∧ processGlobals l s₂ = some t₂ ∧
        RelArgs s₁ s₂ t₁ t₂) := by
  intro l
  induction l with
  | nil => intro s₁ s₂; exact Or.inr ⟨s₁, s₂, rfl, rfl, relArgs_refl s₁ s₂⟩
  | cons p rest ih =>
    intro s₁ s₂
    obtain ⟨arg, val⟩ := p
    cases ha : arg.as_str with
    | none =>
      left
      constructor <;> simp [processGlobals, ha]
    | some thearg =>
      have hred : ∀ s : OperatorArgs, processGlobals ((arg, val) :: rest) s =
          (if thearg ≠ "inv" then
            (if scalarText val ≠ "" then processGlobals rest (s.insert thearg (scalarText val))
             else processGlobals rest s)
           else processGlobals rest s) := by
        intro s
        simp only [processGlobals, ha]
      by_cases hinv : thearg ≠ "inv"
      · by_cases hv : scalarText val ≠ ""
        · rcases ih (s₁.insert thearg (scalarText val)) (s₂.insert thearg (scalarText val))
            with ⟨h1, h2⟩ | ⟨t₁, t₂, h1, h2, hrel⟩
          · left
            rw [hred s₁, hred s₂, if_pos hinv, if_pos hinv, if_pos hv, if_pos hv]
            exact ⟨h1, h2⟩
          · right
            refine ⟨t₁, t₂, ?_, ?_, relArgs_of_insert _ _ hrel⟩
            · rw [hred s₁, if_pos hinv, if_pos hv]; exact h1
            · rw [hred s₂, if_pos hinv, if_pos hv]; exact h2
        · rcases ih s₁ s₂ with ⟨h1, h2⟩ | ⟨t₁, t₂, h1, h2, hrel⟩
          · left
            rw [hred s₁, hred s₂, if_pos hinv, if_pos hinv, if_neg hv, if_neg hv]
            exact ⟨h1, h2⟩
          · right
            refine ⟨t₁, t₂, ?_, ?_, hrel⟩
            · rw [hred s₁, if_pos hinv, if_neg hv]; exact h1
            · rw [hred s₂, if_pos hinv, if_neg hv]; exact h2
      · rcases ih s₁ s₂ with ⟨h1, h2⟩ | ⟨t₁, t₂, h1, h2, hrel⟩
        · left
          rw [hred s₁, hred s₂, if_neg hinv, if_neg hinv]
          exact ⟨h1, h2⟩
        · right
          refine ⟨t₁, t₂, ?_, ?_, hrel⟩
          · rw [hred s₁, if_neg hinv]; exact h1
          · rw [hred s₂, if_neg hinv]; exact h2

theorem insertArgs_rel :
    ∀ (l : List (Yaml × Yaml)) (s₁ s₂ : OperatorArgs),
      (insertArgs l s₁ = none ∧ insertArgs l s₂ = none) ∨
      (∃ t₁ t₂, insertArgs l s₁ = some t₁ ∧ insertArgs l s₂ = some t₂ ∧
        RelArgs s₁ s₂ t₁ t₂) := by
  intro l
  induction l with
  | nil => intro s₁ s₂; exact Or.inr ⟨s₁, s₂, rfl, rfl, relArgs_refl s₁ s₂⟩
  | cons p rest ih =>
    intro s₁ s₂
    obtain ⟨arg, val⟩ := p
    cases ha : arg.as_str with
    | none =>
      left
      constructor <;> simp [insertArgs, ha]
    | some thearg =>
      have hred : ∀ s : OperatorArgs, insertArgs ((arg, val) :: rest) s =
          (if scalarText val ≠ "" then insertArgs rest (s.insert thearg (scalarText val))
           else insertArgs rest s) := by
        intro s
        simp only [insertArgs, ha]
      by_cases hv : scalarText val ≠ ""
      · rcases ih (s₁.insert thearg (scalarText val)) (s₂.insert thearg (scalarText val))
          with ⟨h1, h2⟩ | ⟨t₁, t₂, h1, h2, hrel⟩
        · left
          rw [hred s₁, hred s₂, if_pos hv, if_pos hv]
          exact ⟨h1, h2⟩
        · right
          refine ⟨t₁, t₂, ?_, ?_, relArgs_of_insert _ _ hrel⟩
          · rw [hred s₁, if_pos hv]; exact h1
          · rw [hred s₂, if_pos hv]; exact h2
      · rcases ih s₁ s₂ with ⟨h1, h2⟩ | ⟨t₁, t₂, h1, h2, hrel⟩
        · left
          rw [hred s₁, hred s₂, if_neg hv, if_neg hv]
          exact ⟨h1, h2⟩
        · right
          refine ⟨t₁, t₂, ?_, ?_, hrel⟩
          · rw [hred s₁, if_neg hv]; exact h1
          · rw [hred s₂, if_neg hv]; exact h2

theorem insertSteps_rel (emit : Yaml → String) :
    ∀ (l : List Yaml) (i : Nat) (s₁ s₂ : OperatorArgs),
      RelArgs s₁ s₂ (insertStepsFrom emit i l s₁) (insertStepsFrom emit i l s₂) := by
  intro l
  induction l with
  | nil => intro i s₁ s₂; exact relArgs_refl s₁ s₂
  | cons step rest ih =>
    intro i s₁ s₂
    simp only [insertStepsFrom]
    exact relArgs_of_insert _ _ (ih (i + 1) _ _)

theorem populate_rel (emit : Yaml → String) (definition : String) (docs : List Yaml)
    (which : String) (s₁ s₂ : OperatorArgs) :
    (OperatorArgs.populate emit definition docs which s₁ = none ∧
     OperatorArgs.populate emit definition docs which s₂ = none) ∨
    (∃ b t₁ t₂, OperatorArgs.populate emit definition docs which s₁ = some (b, t₁) ∧
      OperatorArgs.populate emit definition docs which s₂ = some (b, t₂) ∧
      RelArgs s₁ s₂ t₁ t₂) := by
  have hbase := relArgs_insert_both s₁ s₂ "_definition" definition
  cases hloc : OperatorArgs.locateIndex docs which with
  | none =>
    right
    exact ⟨false, _, _, by simp only [OperatorArgs.populate, hloc]; rfl,
      by simp only [OperatorArgs.populate, hloc]; rfl,
      relArgs_trans hbase (relArgs_insert_both
        ((s₁.insert "_definition" definition).setName "badvalue")
        ((s₂.insert "_definition" definition).setName "badvalue")
        "cause" "Cannot locate definition")⟩
  | some index =>
    cases hget : docs.get? index with
    | none =>
      left
      constructor <;> simp only [OperatorArgs.populate, hloc, hget]
    | some doc =>
      cases hhash : doc.as_hash with
      | none =>
        right
        exact ⟨false, _, _, by simp only [OperatorArgs.populate, hloc, hget, hhash]; rfl,
          by simp only [OperatorArgs.populate, hloc, hget, hhash]; rfl,
          relArgs_trans hbase (relArgs_insert_both
            ((s₁.insert "_definition" definition).setName "badvalue")
            ((s₂.insert "_definition" definition).setName "badvalue")
            "cause" "Cannot parse definition")⟩
      | some main =>
        cases hname : (if which = "" then findMainEntryName main "" else
            some (Except.ok which)) with
        | none =>
          left
          constructor <;> simp only [OperatorArgs.populate, hloc, hget, hhash, hname]
        | some res =>
          cases res with
          | error cause =>
            right
            exact ⟨false, _, _,
              by simp only [OperatorArgs.populate, hloc, hget, hhash, hname]; rfl,
              by simp only [OperatorArgs.populate, hloc, hget, hhash, hname]; rfl,
              relArgs_trans hbase (relArgs_insert_both
                ((s₁.insert "_definition" definition).setName "badvalue")
                ((s₂.insert "_definition" definition).setName "badvalue")
                "cause" cause)⟩
          | ok mname =>
            by_cases hbadv : (doc.index mname).is_badvalue = true
            · right
              exact ⟨false, _, _,
                by simp only [OperatorArgs.populate, hloc, hget, hhash, hname, hbadv, if_true]; rfl,
                by simp only [OperatorArgs.populate, hloc, hget, hhash, hname, hbadv, if_true]; rfl,
                relArgs_trans hbase (relArgs_insert_both
                  (((s₁.insert "_definition" definition).setName mname).setName "badvalue")
                  (((s₂.insert "_definition" definition).setName mname).setName "badvalue")
                  "cause" "Cannot locate definition")⟩
            · have hglob : ∀ s : OperatorArgs,
                  OperatorArgs.populate emit definition docs which s =
                  (match
                    (match ((doc.index mname).index "globals").as_hash with
                     | some globals =>
                       processGlobals globals ((s.insert "_definition" definition).setName mname)
                     | none => some ((s.insert "_definition" definition).setName mname)) with
                   | none => none
                   | some s =>
                     match ((doc.index mname).index "steps").as_vec with
                     | none =>
                       match (doc.index mname).as_hash with
                       | none => some (s.badvalue "Cannot read args")
                       | some args =>
                         match insertArgs args s with
                         | none => none
                         | some s => some (true, s)
                     | some steps =>
                       some (true, insertStepsFrom emit 0 steps
                         (s.insert "_nsteps" (toString steps.length)))) := by
                intro s
                simp only [OperatorArgs.populate, hloc, hget, hhash, hname, hbadv]
                rw [if_neg (by simp)]
              rw [hglob s₁, hglob s₂]
              cases hg : ((doc.index mname).index "globals").as_hash with
              | none =>
                simp only [hg]
                have hrel1 : RelArgs s₁ s₂
                    ((s₁.insert "_definition" definition).setName mname)
                    ((s₂.insert "_definition" definition).setName mname) := hbase
                cases hst : ((doc.index mname).index "steps").as_vec with
                | some steps =>
                  simp only [hst]
                  right
                  refine ⟨true, _, _, rfl, rfl, ?_⟩
                  exact relArgs_trans hrel1 (relArgs_trans
                    (relArgs_insert_both _ _ "_nsteps" (toString steps.length))
                    (insertSteps_rel emit steps 0 _ _))
                | none =>
                  simp only [hst]
                  cases hah : (doc.index mname).as_hash with
                  | none =>
                    simp only [hah]
                    right
                    exact ⟨false, _, _, rfl, rfl,
                      relArgs_trans hrel1 (relArgs_insert_both _ _ "cause" "Cannot read args")⟩
                  | some args =>
                    simp only [hah]
                    rcases insertArgs_rel args _ _ with ⟨h1, h2⟩ | ⟨w₁, w₂, h1, h2, hrel2⟩
                    · left
                      rw [h1, h2]
                      exact ⟨rfl, rfl⟩
                    · right
                      rw [h1, h2]
                      exact ⟨true, w₁, w₂, rfl, rfl, relArgs_trans hrel1 hrel2⟩
              | some g =>
                simp only [hg]
                rcases processGlobals_rel g ((s₁.insert "_definition" definition).setName mname)
                    ((s₂.insert "_definition" definition).setName mname) with
                  ⟨hn₁, hn₂⟩ | ⟨u₁, u₂, hp₁, hp₂, hrel⟩
                · left
                  rw [hn₁, hn₂]
                  exact ⟨rfl, rfl⟩
                · rw [hp₁, hp₂]
                  dsimp only
                  have hrel1 : RelArgs s₁ s₂ u₁ u₂ := relArgs_trans hbase hrel
                  cases hst : ((doc.index mname).index "steps").as_vec with
                  | some steps =>
                    simp only [hst]
                    right
                    refine ⟨true, _, _, rfl, rfl, ?_⟩
                    exact relArgs_trans hrel1 (relArgs_trans
                      (relArgs_insert_both _ _ "_nsteps" (toString steps.length))
                      (insertSteps_rel emit steps 0 _ _))
                  | none =>
                    simp only [hst]
                    cases hah : (doc.index mname).as_hash with
                    | none =>
                      simp only [hah]
                      right
                      exact ⟨false, _, _, rfl, rfl,
                        relArgs_trans hrel1 (relArgs_insert_both _ _ "cause" "Cannot read args")⟩
                    | some args =>
                      simp only [hah]
                      rcases insertArgs_rel args u₁ u₂ with ⟨h1, h2⟩ | ⟨w₁, w₂, h1, h2, hrel2⟩
                      · left
                        rw [h1, h2]
                        exact ⟨rfl, rfl⟩
                      · right
                        rw [h1, h2]
                        exact ⟨true, w₁, w₂, rfl, rfl, relArgs_trans hrel1 hrel2⟩

/-!
Claims about the definition loader.
-/

/-- C3: whenever `populate` returns the failure boolean after a successful
generic parse, the store's name is the `badvalue` sentinel and one of the
loader's human-readable messages sits under `args["cause"]`; in
particular, with an empty selector and a root mapping holding only
underscore-prefixed string keys (zero non-underscore keys), the load
fails softly with cause `Cannot locate definition`. -/
theorem claim_C3 :
    (∀ (emit : Yaml → String) (definition : String) (docs : List Yaml) (which : String)
      (s t : OperatorArgs), OperatorArgs.populate emit definition docs which s = some (false, t) →
        t.name = "badvalue" ∧
        ∃ c, t.args "cause" = some c ∧
          c ∈ ["Cannot locate definition", "Cannot parse definition",
            "Too many items in definition root", "Cannot read args"]) ∧
    (∀ (emit : Yaml → String) (definition : String) (docs : List Yaml) (s : OperatorArgs)
      (doc : Yaml) (main : List (Yaml × Yaml)), docs.get? 0 = some doc →
        doc.as_hash = some main →
        (∀ p ∈ main, p.2.is_badvalue = false ∧
          ∃ nm, p.1.as_str = some nm ∧ starts_with nm '_' = true) →
        ∃ t, OperatorArgs.populate emit definition docs "" s = some (false, t) ∧
          t.name = "badvalue" ∧ t.args "cause" = some "Cannot locate definition") := by
  constructor
  · intro emit definition docs which s t h
    unfold OperatorArgs.populate at h
    dsimp only at h
    split at h
    · injection h with h
      rw [snd_of_pair_eq h]
      exact ⟨rfl, "Cannot locate definition", rfl, by simp⟩
    · split at h
      · exact absurd h (by simp)
      · split at h
        · injection h with h
          rw [snd_of_pair_eq h]
          exact ⟨rfl, "Cannot parse definition", rfl, by simp⟩
        · split at h
          · exact absurd h (by simp)
          · rename_i cause hcause
            injection h with h
            rw [snd_of_pair_eq h]
            refine ⟨rfl, cause, rfl, ?_⟩
            have : ∀ (l : List (Yaml × Yaml)) (acc : String) (c : String),
                findMainEntryName l acc = some (Except.error c) →
                c ∈ ["Cannot locate definition", "Cannot parse definition",
                  "Too many items in definition root", "Cannot read args"] := by
              intro l
              induction l with
              | nil => intro acc c hc; simp [findMainEntryName] at hc
              | cons p rest ih =>
                intro acc c hc
                obtain ⟨arg, val⟩ := p
                by_cases hb : val.is_badvalue = true
                · simp only [findMainEntryName, hb, if_true] at hc
                  injection hc with hc
                  injection hc with hc
                  simp [← hc]
                · simp only [findMainEntryName, hb, if_false] at hc
                  cases ha : arg.as_str with
                  | none =>
                    rw [ha] at hc
                    dsimp only at hc
                    exact absurd hc (by simp)
                  | some nm =>
                    rw [ha] at hc
                    dsimp only at hc
                    by_cases hu : starts_with nm '_' = true
                    · rw [if_pos hu] at hc
                      exact ih acc c hc
                    · rw [if_neg hu] at hc
                      by_cases hacc : acc ≠ ""
                      · rw [if_pos hacc] at hc
                        injection hc with hc
                        injection hc with hc
                        simp [← hc]
                      · rw [if_neg hacc] at hc
                        exact ih nm c hc
            split at hcause
            · exact this _ _ _ hcause
            · exact absurd hcause (by simp)
          · split at h
            · injection h with h
              rw [snd_of_pair_eq h]
              exact ⟨rfl, "Cannot locate definition", rfl, by simp⟩
            · split at h
              · exact absurd h (by simp)
              · split at h
                · split at h
                  · injection h with h
                    rw [snd_of_pair_eq h]
                    exact ⟨rfl, "Cannot read args", rfl, by simp⟩
                  · split at h
                    · exact absurd h (by simp)
                    · injection h with h
                      exact absurd (congrArg Prod.fst h) (by simp)
                · injection h with h
                  exact absurd (congrArg Prod.fst h) (by simp)
  · intro emit definition docs s doc main h0 hh hall
    have hname := findMainEntryName_underscore main "" hall
    have hmain_entry : doc.index "" = Yaml.badValue := by
      unfold Yaml.index
      rw [hh]
      dsimp only
      rw [hashGet_underscore_none main (fun p hp => (hall p hp).2)]
      rfl
    have hloc : OperatorArgs.locateIndex docs "" = some 0 := rfl
    unfold OperatorArgs.populate
    dsimp only
    rw [hloc]
    dsimp only
    rw [h0]
    dsimp only
    rw [hh]
    dsimp only
    rw [if_pos rfl, hname]
    dsimp only
    rw [hmain_entry]
    simp only [Yaml.is_badvalue, if_true]
    exact ⟨_, rfl, rfl, rfl⟩

/-- C3 witness: a scalar-rooted document fails softly with a recorded
cause, and a root mapping with only underscore keys and an empty selector
fails softly with cause `Cannot locate definition`. -/
theorem claim_C3_witness :
    (OperatorArgs.populate emit0 "x" scalarDocs "" OperatorArgs.new =
        some (false, scalarResult.2) ∧
      scalarResult.2.name = "badvalue" ∧
      ∃ c, scalarResult.2.args "cause" = some c ∧
        c ∈ ["Cannot locate definition", "Cannot parse definition",
          "Too many items in definition root", "Cannot read args"]) ∧
    (∃ t, OperatorArgs.populate emit0 "u" underscoreDocs "" OperatorArgs.new =
        some (false, t) ∧
      t.name = "badvalue" ∧ t.args "cause" = some "Cannot locate definition") := by
  have hp : OperatorArgs.populate emit0 "x" scalarDocs "" OperatorArgs.new =
      some (false, scalarResult.2) := rfl
  have h1 := claim_C3.1 emit0 "x" scalarDocs "" OperatorArgs.new scalarResult.2 hp
  refine ⟨⟨hp, h1.1, h1.2⟩, ?_⟩
  refine claim_C3.2 emit0 "u" underscoreDocs OperatorArgs.new (Yaml.hash
    [(Yaml.string "_x", Yaml.string "1")]) [(Yaml.string "_x", Yaml.string "1")] rfl rfl ?_
  intro p hp2
  simp only [List.mem_singleton] at hp2
  subst hp2
  exact ⟨rfl, "_x", rfl, rfl⟩

/-- C4: the claim that `populate` never panics after a successful generic
parse fails on the code: on the parseable document `1: {ellps: intl}`
(whose root mapping has a non-string key) the `unwrap` in the
main-entry-name scan panics, modelled here as the `none` result. -/
theorem claim_C4 :
    OperatorArgs.populate emit0 "1: {ellps: intl}" intKeyDocs "" OperatorArgs.new = none :=
  rfl

/-- C6: every store operation preserves the invariant that each key of
`used` is also a key of `all_used` (and the constructors establish it). -/
theorem claim_C6 :
    usedSubset OperatorArgs.new ∧
    usedSubset OperatorArgs.global_defaults ∧
    (∀ (s : OperatorArgs) (k v : String), usedSubset s → usedSubset (s.insert k v)) ∧
    (∀ (s : OperatorArgs) (n : String), usedSubset s → usedSubset (s.setName n)) ∧
    (∀ (s a : OperatorArgs), usedSubset s → usedSubset (s.append a)) ∧
    (∀ (emit : Yaml → String) (definition : String) (docs : List Yaml) (which : String)
      (s : OperatorArgs) (b : Bool) (t : OperatorArgs), usedSubset s →
      OperatorArgs.populate emit definition docs which s = some (b, t) → usedSubset t) ∧
    (∀ (emit : Yaml → String) (existing : OperatorArgs) (definition : String)
      (docs : List Yaml) (which : String) (t : OperatorArgs),
      OperatorArgs.with_globals_from emit existing definition docs which = some t →
      usedSubset t) ∧
    (∀ (fuel : Nat) (key default : String) (s : OperatorArgs), usedSubset s →
      usedSubset (OperatorArgs.value_recursive_search fuel key default s).2) ∧
    (∀ (fuel : Nat) (key default : String) (s : OperatorArgs), usedSubset s →
      usedSubset (OperatorArgs.value fuel key default s).2) ∧
    (∀ (parse : String → Option Float) (fuel : Nat) (operator_name key : String) (d : Float)
      (s : OperatorArgs), usedSubset s →
      usedSubset (OperatorArgs.numeric_value parse fuel operator_name key d s).2) ∧
    (∀ (fuel : Nat) (key : String) (s : OperatorArgs), usedSubset s →
      usedSubset (OperatorArgs.flag fuel key s).2) := by
  have hnew : usedSubset OperatorArgs.new := by
    intro k hk
    simp [OperatorArgs.new] at hk
  refine ⟨hnew, hnew, ?_, ?_, ?_, ?_, ?_, vrs_usedSubset, value_usedSubset, ?_, ?_⟩
  · intro s k v hs
    exact hs
  · intro s n hs
    exact hs
  · intro s a hs
    exact hs
  · intro emit definition docs which s b t hs h
    have ht := populate_tracking emit definition docs which s b t h
    intro k hk
    rw [ht.1] at hk
    rw [ht.2]
    exact hs k hk
  · intro emit existing definition docs which t h
    unfold OperatorArgs.with_globals_from at h
    dsimp only at h
    split at h
    · exact absurd h (by simp)
    · rename_i bb oa2 hp
      have ht := populate_tracking emit definition docs which _ bb oa2 hp
      injection h with h
      rw [← h]
      intro k hk
      rw [ht.1] at hk
      simp [OperatorArgs.new] at hk
  · intro parse fuel operator_name key d s hs
    rw [numeric_value_store]
    exact value_usedSubset fuel key "" s hs
  · intro fuel key s hs
    rw [flag_store]
    exact value_usedSubset fuel key "false" s hs

/-- C6 witness: the invariant holds after inserting into a fresh store and
after resolving the two-hop indirection chain of the unit-test store. -/
theorem claim_C6_witness :
    usedSubset (OperatorArgs.new.insert "a" "b") ∧
    usedSubset (OperatorArgs.value 5 "dz" "" chainStore).2 := by
  have hchain : usedSubset chainStore := by
    intro k hk
    simp [chainStore, OperatorArgs.new, OperatorArgs.insert] at hk
  have hnew : usedSubset OperatorArgs.new := by
    intro k hk
    simp [OperatorArgs.new] at hk
  exact ⟨claim_C6.2.2.1 OperatorArgs.new "a" "b" hnew,
    claim_C6.2.2.2.2.2.2.2.2.1 5 "dz" "" chainStore hchain⟩

/-- C5: a store derived via `with_globals_from` never holds an inherited
value at an underscore-prefixed key or at `inv`: such a key is absent
unless the load itself inserted a (present) value there, the same value
the load writes when run from a fresh parent. Every other parent key is
present in the derived store: it keeps its parent value unless the load
overwrote it, in which case it holds the load's own inserted value (again
identified by the fresh-parent run). -/
theorem claim_C5 : ∀ (emit : Yaml → String) (existing : OperatorArgs) (definition : String)
    (docs : List Yaml) (which k : String) (t t₀ : OperatorArgs),
    OperatorArgs.with_globals_from emit existing definition docs which = some t →
    OperatorArgs.with_globals_from emit OperatorArgs.new definition docs which = some t₀ →
    ((starts_with k '_' || k == "inv") = true →
      t.args k = none ∨ ∃ w, t.args k = some w ∧ t₀.args k = some w) ∧
    ((starts_with k '_' || k == "inv") = false → ∀ v, existing.args k = some v →
      t.args k = some v ∨ ∃ w, t.args k = some w ∧ t₀.args k = some w) := by
  intro emit existing definition docs which k t t₀ h h₀
  unfold OperatorArgs.with_globals_from at h h₀
  dsimp only at h h₀
  rcases populate_rel emit definition docs which
      { OperatorArgs.new with
        args := fun q => if starts_with q '_' || q == "inv" then none else existing.args q }
      { OperatorArgs.new with
        args := fun q =>
          if starts_with q '_' || q == "inv" then none else OperatorArgs.new.args q } with
    ⟨hn₁, hn₂⟩ | ⟨b, t₁, t₂, hp₁, hp₂, hR⟩
  · rw [hn₁] at h
    exact absurd h (by simp)
  · rw [hp₁] at h
    rw [hp₂] at h₀
    dsimp only at h h₀
    injection h with h
    injection h₀ with h₀
    subst h
    subst h₀
    constructor
    · intro hk
      rcases hR k with ⟨h1, h2⟩ | ⟨w, hw1, hw2⟩
      · left
        rw [h1]
        simp [hk]
      · exact Or.inr ⟨w, hw1, hw2⟩
    · intro hk v hv
      rcases hR k with ⟨h1, h2⟩ | ⟨w, hw1, hw2⟩
      · left
        rw [h1]
        simp [hk, hv]
      · exact Or.inr ⟨w, hw1, hw2⟩

/-- C5 witness: deriving from a parent holding `k1`, `_hidden` and `inv`
over the plain-operator definition `cart: {ellps: intl}`: the underscore
key and `inv` are not inherited (both concretely absent), while `k1` is
retained with its parent value `"v1"` (concretely present, since the
load writes no `k1`). -/
theorem claim_C5_witness :
    ((starts_with "_hidden" '_' || "_hidden" == "inv") = true ∧
      (deriveResult.args "_hidden" = none ∨
        ∃ w, deriveResult.args "_hidden" = some w ∧ deriveBase.args "_hidden" = some w) ∧
      deriveResult.args "_hidden" = none) ∧
    ((starts_with "inv" '_' || "inv" == "inv") = true ∧
      (deriveResult.args "inv" = none ∨
        ∃ w, deriveResult.args "inv" = some w ∧ deriveBase.args "inv" = some w) ∧
      deriveResult.args "inv" = none) ∧
    ((starts_with "k1" '_' || "k1" == "inv") = false ∧ parentStore.args "k1" = some "v1" ∧
      (deriveResult.args "k1" = some "v1" ∨
        ∃ w, deriveResult.args "k1" = some w ∧ deriveBase.args "k1" = some w) ∧
      deriveResult.args "k1" = some "v1") := by
  have h : OperatorArgs.with_globals_from emit0 parentStore "d" cartDocs "" =
      some deriveResult := rfl
  have h₀ : OperatorArgs.with_globals_from emit0 OperatorArgs.new "d" cartDocs "" =
      some deriveBase := rfl
  refine ⟨⟨rfl, ?_, rfl⟩, ⟨rfl, ?_, rfl⟩, ⟨rfl, rfl, ?_, rfl⟩⟩
  · exact (claim_C5 emit0 parentStore "d" cartDocs "" "_hidden" _ _ h h₀).1 rfl
  · exact (claim_C5 emit0 parentStore "d" cartDocs "" "inv" _ _ h h₀).1 rfl
  · exact (claim_C5 emit0 parentStore "d" cartDocs "" "k1" _ _ h h₀).2 rfl "v1" rfl

/-- C2: a successful pipeline load stores the decimal step count under
`_nsteps` and, under each `_step_<i>`, exactly the emitter's text for
step `i` with leading document separators trimmed; the step loop writes
nothing else (steps are not flattened into individual argument keys). -/
theorem claim_C2 : ∀ (emit : Yaml → String) (definition : String) (docs : List Yaml)
    (which : String) (s : OperatorArgs) (idx : Nat) (doc : Yaml)
    (main : List (Yaml × Yaml)) (mname : String) (st : List Yaml) (b : Bool)
    (t : OperatorArgs),
    OperatorArgs.locateIndex docs which = some idx →
    docs.get? idx = some doc →
    doc.as_hash = some main →
    (if which = "" then findMainEntryName main "" else some (Except.ok which)) =
      some (Except.ok mname) →
    (doc.index mname).is_badvalue = false →
    ((doc.index mname).index "steps").as_vec = some st →
    OperatorArgs.populate emit definition docs which s = some (b, t) →
    b = true ∧
    t.args "_nsteps" = some (toString st.length) ∧
    (∀ (i : Nat) (hi : i < st.length),
      t.args ("_step_" ++ toString i) =
        some (trimStartMatches "---\n" (emit (st.get ⟨i, hi⟩)))) ∧
    (∀ (emit' : Yaml → String) (l : List Yaml) (s' : OperatorArgs) (k : String),
      (∀ j, j < l.length → k ≠ "_step_" ++ toString j) →
      (OperatorArgs.insertStepsFrom emit' 0 l s').args k = s'.args k) := by
  intro emit definition docs which s idx doc main mname st b t
    hloc hget hhash hname hbad hst hp
  have hframe : ∀ (emit' : Yaml → String) (l : List Yaml) (s' : OperatorArgs) (k : String),
      (∀ j, j < l.length → k ≠ "_step_" ++ toString j) →
      (OperatorArgs.insertStepsFrom emit' 0 l s').args k = s'.args k := by
    intro emit' l s' k hk
    exact insertSteps_frame emit' l 0 s' k (fun j hj => by simpa using hk j hj)
  simp only [OperatorArgs.populate, hloc, hget, hhash, hname, hbad] at hp
  rw [if_neg (by simp)] at hp
  have key : ∃ u : OperatorArgs, b = true ∧
      t = OperatorArgs.insertStepsFrom emit 0 st
        (u.insert "_nsteps" (toString st.length)) := by
    cases hg : ((doc.index mname).index "globals").as_hash with
    | none =>
      simp only [hg] at hp
      rw [hst] at hp
      dsimp only at hp
      injection hp with hp
      exact ⟨_, (congrArg Prod.fst hp).symm, snd_of_pair_eq hp⟩
    | some g =>
      simp only [hg] at hp
      cases hpg : processGlobals g
          ((s.insert "_definition" definition).setName mname) with
      | none =>
        rw [hpg] at hp
        exact absurd hp (by simp)
      | some u =>
        rw [hpg] at hp
        dsimp only at hp
        rw [hst] at hp
        dsimp only at hp
        injection hp with hp
        exact ⟨u, (congrArg Prod.fst hp).symm, snd_of_pair_eq hp⟩
  obtain ⟨u, hb, ht⟩ := key
  subst ht
  refine ⟨hb, ?_, ?_, hframe⟩
  · rw [insertSteps_frame emit st 0 _ "_nsteps"
      (fun j _ => nsteps_ne_stepKey (toString (0 + j)))]
    rfl
  · intro i hi
    have := insertSteps_args_at emit st 0 (u.insert "_nsteps" (toString st.length)) i hi
    simpa using this

/-- C2 witness: loading the one-step pipeline `pipe: {steps: [cart: 1]}`
with an emitter that prints `---\ncart: 1` yields `_nsteps = "1"` and
`_step_0 = "cart: 1"` (separator stripped). -/
theorem claim_C2_witness :
    pipeResult.1 = true ∧
    pipeResult.2.args "_nsteps" = some "1" ∧
    pipeResult.2.args "_step_0" = some "cart: 1" := by
  have hp : OperatorArgs.populate emitCart "d" pipeDocs "pipe" OperatorArgs.new =
      some (true, pipeResult.2) := rfl
  have h := claim_C2 emitCart "d" pipeDocs "pipe" OperatorArgs.new 0
    (Yaml.hash [(Yaml.string "pipe", Yaml.hash [(Yaml.string "steps",
      Yaml.array [Yaml.hash [(Yaml.string "cart", Yaml.integer 1)]])])])
    [(Yaml.string "pipe", Yaml.hash [(Yaml.string "steps",
      Yaml.array [Yaml.hash [(Yaml.string "cart", Yaml.integer 1)]])])]
    "pipe" [Yaml.hash [(Yaml.string "cart", Yaml.integer 1)]] true pipeResult.2
    rfl rfl rfl rfl rfl rfl hp
  exact ⟨rfl, h.2.1, h.2.2.1 0 (by decide)⟩

/-- C7 counterexample: the claim fails as stated, because `insert`
performs no validation: inserting `_nsteps = "1"` into a fresh store
leaves `_nsteps` present with no `_step_0`. -/
theorem claim_C7_counterexample :
    ¬ nstepsInvariant (OperatorArgs.new.insert "_nsteps" "1") := by
  intro h
  obtain ⟨n, hv, hiff⟩ := h "1" rfl
  have h0 : ((OperatorArgs.new.insert "_nsteps" "1").args
      ("_step_" ++ toString 0)).isSome = false := rfl
  have hn0 : n = 0 := by
    by_contra hne
    have hlt : 0 < n := Nat.pos_of_ne_zero hne
    have htrue := (hiff 0).mpr hlt
    rw [htrue] at h0
    exact Bool.noConfusion h0
  subst hn0
  exact absurd hv (by decide)

/-- C7 (amended): the pipeline branch of the loader establishes the
`_nsteps`/`_step_<i>` counting invariant whenever the initial store holds
no step keys and the definition's globals introduce none, and the query
operations preserve it (they leave `args` untouched); unvalidated raw
`insert` can break it. -/
theorem claim_C7 : (∀ (emit : Yaml → String) (definition : String) (docs : List Yaml)
    (which : String) (s : OperatorArgs) (idx : Nat) (doc : Yaml)
    (main : List (Yaml × Yaml)) (mname : String) (st : List Yaml) (b : Bool)
    (t : OperatorArgs),
    OperatorArgs.locateIndex docs which = some idx →
    docs.get? idx = some doc →
    doc.as_hash = some main →
    (if which = "" then findMainEntryName main "" else some (Except.ok which)) =
      some (Except.ok mname) →
    (doc.index mname).is_badvalue = false →
    ((doc.index mname).index "steps").as_vec = some st →
    (∀ i : Nat, s.args ("_step_" ++ toString i) = none) →
    (∀ g, ((doc.index mname).index "globals").as_hash = some g →
      ∀ p ∈ g, ∀ nm, p.1.as_str = some nm → ∀ i : Nat, nm ≠ "_step_" ++ toString i) →
    OperatorArgs.populate emit definition docs which s = some (b, t) →
    nstepsInvariant t) ∧
    (∀ (fuel : Nat) (key default : String) (s : OperatorArgs),
      nstepsInvariant s → nstepsInvariant (OperatorArgs.value fuel key default s).2) ∧
    (∀ (parse : String → Option Float) (fuel : Nat) (operator_name key : String) (d : Float)
      (s : OperatorArgs), nstepsInvariant s →
      nstepsInvariant (OperatorArgs.numeric_value parse fuel operator_name key d s).2) ∧
    (∀ (fuel : Nat) (key : String) (s : OperatorArgs),
      nstepsInvariant s → nstepsInvariant (OperatorArgs.flag fuel key s).2) := by
  refine ⟨?_, ?_, ?_, ?_⟩
  · intro emit definition docs which s idx doc main mname st b t
      hloc hget hhash hname hbad hst hclean hglobclean hp
    simp only [OperatorArgs.populate, hloc, hget, hhash, hname, hbad] at hp
    rw [if_neg (by simp)] at hp
    have key : ∃ u : OperatorArgs,
        t = OperatorArgs.insertStepsFrom emit 0 st
          (u.insert "_nsteps" (toString st.length)) ∧
        ∀ i : Nat, u.args ("_step_" ++ toString i) = none := by
      have hbaseargs : ∀ i : Nat,
          ((s.insert "_definition" definition).setName mname).args
            ("_step_" ++ toString i) = none := by
        intro i
        have h1 : ("_step_" ++ toString i) ≠ "_definition" :=
          fun he => definition_ne_stepKey (toString i) he.symm
        rw [show ((s.insert "_definition" definition).setName mname).args
            ("_step_" ++ toString i) =
          mapInsert s.args "_definition" definition ("_step_" ++ toString i) from rfl]
        rw [mapInsert_other _ _ _ _ h1]
        exact hclean i
      cases hg : ((doc.index mname).index "globals").as_hash with
      | none =>
        simp only [hg] at hp
        rw [hst] at hp
        dsimp only at hp
        injection hp with hp
        exact ⟨_, snd_of_pair_eq hp, hbaseargs⟩
      | some g =>
        simp only [hg] at hp
        cases hpg : processGlobals g
            ((s.insert "_definition" definition).setName mname) with
        | none =>
          rw [hpg] at hp
          exact absurd hp (by simp)
        | some u =>
          rw [hpg] at hp
          dsimp only at hp
          rw [hst] at hp
          dsimp only at hp
          injection hp with hp
          refine ⟨u, snd_of_pair_eq hp, ?_⟩
          intro i
          rw [processGlobals_frame g _ _ _ hpg
            (fun p hpmem nm hnm => hglobclean g hg p hpmem nm hnm i)]
          exact hbaseargs i
    obtain ⟨u, ht, hu⟩ := key
    subst ht
    intro v hv
    rw [insertSteps_frame emit st 0 _ "_nsteps"
      (fun j _ => nsteps_ne_stepKey (toString (0 + j)))] at hv
    rw [show (u.insert "_nsteps" (toString st.length)).args "_nsteps" =
      some (toString st.length) from rfl] at hv
    injection hv with hv
    refine ⟨st.length, hv.symm, ?_⟩
    intro i
    by_cases hi : i < st.length
    · have := insertSteps_args_at emit st 0
        (u.insert "_nsteps" (toString st.length)) i hi
      rw [show (0 : Nat) + i = i from Nat.zero_add i] at this
      rw [this]
      simp [hi]
    · have hout : ∀ j, j < st.length → ("_step_" ++ toString i) ≠ "_step_" ++ toString (0 + j) := by
        intro j hj he
        have := stepKey_inj he
        omega
      rw [insertSteps_frame emit st 0 _ _ hout]
      rw [show (OperatorArgs.insert u "_nsteps" (toString st.length)).args
          ("_step_" ++ toString i) =
        mapInsert u.args "_nsteps" (toString st.length) ("_step_" ++ toString i) from rfl]
      rw [mapInsert_other _ _ _ _ (fun he => nsteps_ne_stepKey (toString i) he.symm)]
      rw [hu i]
      simp [hi]
  · intro fuel key default s hs
    have hargs := (value_store_effects fuel key default s).1
    intro v hv
    rw [hargs] at hv
    obtain ⟨n, hn, hiff⟩ := hs v hv
    refine ⟨n, hn, ?_⟩
    intro i
    rw [hargs]
    exact hiff i
  · intro parse fuel operator_name key d s hs
    have hargs : (OperatorArgs.numeric_value parse fuel operator_name key d s).2.args =
        s.args := by
      rw [numeric_value_store]
      exact (value_store_effects fuel key "" s).1
    intro v hv
    rw [hargs] at hv
    obtain ⟨n, hn, hiff⟩ := hs v hv
    refine ⟨n, hn, ?_⟩
    intro i
    rw [hargs]
    exact hiff i
  · intro fuel key s hs
    have hargs : (OperatorArgs.flag fuel key s).2.args = s.args := by
      rw [flag_store]
      exact (value_store_effects fuel key "false" s).1
    intro v hv
    rw [hargs] at hv
    obtain ⟨n, hn, hiff⟩ := hs v hv
    refine ⟨n, hn, ?_⟩
    intro i
    rw [hargs]
    exact hiff i

/-- C7 witness: the loaded one-step pipeline satisfies the counting
invariant, and resolving a key preserves it there. -/
theorem claim_C7_witness :
    nstepsInvariant pipeResult.2 ∧
    nstepsInvariant (OperatorArgs.value 2 "_nsteps" "" pipeResult.2).2 := by
  have hp : OperatorArgs.populate emitCart "d" pipeDocs "pipe" OperatorArgs.new =
      some (true, pipeResult.2) := rfl
  have h1 : nstepsInvariant pipeResult.2 :=
    claim_C7.1 emitCart "d" pipeDocs "pipe" OperatorArgs.new 0
      (Yaml.hash [(Yaml.string "pipe", Yaml.hash [(Yaml.string "steps",
        Yaml.array [Yaml.hash [(Yaml.string "cart", Yaml.integer 1)]])])])
      [(Yaml.string "pipe", Yaml.hash [(Yaml.string "steps",
        Yaml.array [Yaml.hash [(Yaml.string "cart", Yaml.integer 1)]])])]
      "pipe" [Yaml.hash [(Yaml.string "cart", Yaml.integer 1)]] true pipeResult.2
      rfl rfl rfl rfl rfl rfl (fun _ => rfl)
      (fun g hg => Option.noConfusion hg) hp
  exact ⟨h1, claim_C7.2.1 2 "_nsteps" "" pipeResult.2 h1⟩

end Geodesy
